import Mathlib

/-!
Shallow embedding of the signed-integer layer of the saferith package
(src/int.go).  The unsigned magnitude engine (`Nat` in the Go source),
the `Modulus` type and the masked boolean `Choice` are external
collaborators of that file; they are modelled here from the spec's
collaborator contract (§6).  The signed layer itself (`SInt` below) is a
direct translation of the functions in src/int.go.
-/

/-- Modelled from the spec: the masked boolean `Choice` collaborator, a
machine word holding exactly 0 or 1, combined with plain bitwise
operators. -/
abbrev Choice := Nat

/-- Modelled from the spec: the `Modulus` collaborator, an opaque type
representing a positive modulus `m`. -/
structure Modulus where
  val : Nat
  pos : 0 < val

/-- Modelled from the spec: the unsigned magnitude engine (`Nat` in the Go
source): an unsigned arbitrary-precision value together with an announced
bit-length that may exceed the bits actually required. -/
structure SNat where
  val : Nat
  bits : Nat

namespace SNat

/-- Modelled from the spec: `SetBytes` interprets a big-endian byte string
as an unsigned magnitude; the announced size is 8 bits per byte. -/
def SetBytes (data : List Nat) : SNat :=
  ⟨data.foldl (fun acc b => 256 * acc + b % 256) 0, 8 * data.length⟩

/-- Modelled from the spec: `SetUint64` sets the magnitude from a native
unsigned 64-bit value. -/
def SetUint64 (x : Nat) : SNat :=
  ⟨x % 2 ^ 64, 64⟩

/-- Modelled from the spec: `SetNat` is a deep copy of another magnitude
(value and announced size). -/
def SetNat (x : SNat) : SNat :=
  ⟨x.val, x.bits⟩

/-- Modelled from the spec: `Resize` adjusts the announced bit-length,
truncating the value to that many bits. -/
def Resize (x : SNat) (cap : Nat) : SNat :=
  ⟨x.val % 2 ^ cap, cap⟩

/-- Modelled from the spec: `EqZero` returns the masked boolean of the
magnitude being zero. -/
def EqZero (x : SNat) : Choice :=
  if x.val = 0 then 1 else 0

/-- Modelled from the spec: `Eq` returns the masked boolean of value
equality. -/
def Eq (x y : SNat) : Choice :=
  if x.val = y.val then 1 else 0

/-- Modelled from the spec: `Cmp` returns masked booleans
(greater, equal, less) comparing the receiver with the argument. -/
def Cmp (x y : SNat) : Choice × Choice × Choice :=
  (if y.val < x.val then 1 else 0,
   if x.val = y.val then 1 else 0,
   if x.val < y.val then 1 else 0)

/-- Modelled from the spec: `Mul` computes the product truncated to `cap`
bits; when `cap < 0` the cap defaults to the sum of the two announced
bit-lengths. -/
def Mul (x y : SNat) (cap : Int) : SNat :=
  let c : Nat := if cap < 0 then x.bits + y.bits else cap.toNat
  ⟨x.val * y.val % 2 ^ c, c⟩

/-- Modelled from the spec: `Mod` reduces a value into `[0, m)`. -/
def Mod (x : SNat) (m : Modulus) : SNat :=
  ⟨x.val % m.val, m.val.size⟩

/-- Modelled from the spec: `ModNeg` is the additive inverse of a value
modulo `m`, i.e. `(m - x mod m) mod m`. -/
def ModNeg (x : SNat) (m : Modulus) : SNat :=
  ⟨(m.val - x.val % m.val) % m.val, m.val.size⟩

/-- Modelled from the spec: `CmpMod` returns masked booleans comparing the
magnitude against the modulus; the third component is true when the
magnitude is strictly below the modulus. -/
def CmpMod (x : SNat) (m : Modulus) : Choice × Choice × Choice :=
  (if m.val < x.val then 1 else 0,
   if x.val = m.val then 1 else 0,
   if x.val < m.val then 1 else 0)

/-- Modelled from the spec: `CondAssign` overwrites the receiver with the
other value exactly when the mask is true. -/
def CondAssign (z : SNat) (mask : Choice) (x : SNat) : SNat :=
  if mask = 1 then x else z

end SNat

/-- The signed integer of src/int.go: a sign `Choice` (1 = negative,
0 = positive) plus an unsigned magnitude; the number represented is
`(-1)^sign * abs`. -/
structure SInt where
  sign : Choice
  abs : SNat

namespace SInt

/-- The mathematical value denoted by an `SInt`, following the
representation comment in src/int.go: `(-1)^sign * abs`. -/
def toInt (z : SInt) : Int :=
  (-1) ^ z.sign * (z.abs.val : Int)

/-- `SetBytes` (src/int.go): sign set to positive, magnitude parsed from a
big-endian byte string. -/
def SetBytes (z : SInt) (data : List Nat) : SInt :=
  { z with sign := 0, abs := SNat.SetBytes data }

/-- `SetUint64` (src/int.go): sign set to positive, magnitude set from a
64-bit value. -/
def SetUint64 (z : SInt) (x : Nat) : SInt :=
  { z with sign := 0, abs := SNat.SetUint64 x }

/-- `Resize` (src/int.go): adjusts the announced size of the magnitude. -/
def Resize (z : SInt) (cap : Nat) : SInt :=
  { z with abs := z.abs.Resize cap }

/-- `Eq` (src/int.go): masked equality of two signed integers, treating
negative and positive zero as equal. -/
def Eq (z x : SInt) : Choice :=
  let zeroMask := z.abs.EqZero
  let sameSign := zeroMask ||| (1 ^^^ z.sign ^^^ x.sign)
  sameSign &&& z.abs.Eq x.abs

/-- `Abs` (src/int.go): a deep copy of the magnitude. -/
def Abs (z : SInt) : SNat :=
  SNat.SetNat z.abs

/-- `Neg` (src/int.go): flips the sign bit unconditionally and copies the
magnitude with its announced size. -/
def Neg (x : SInt) : SInt :=
  { sign := 1 ^^^ x.sign, abs := SNat.SetNat x.abs }

/-- `Mul` (src/int.go): sign is the XOR of the signs, magnitude the capped
product of the magnitudes. -/
def Mul (x y : SInt) (cap : Int) : SInt :=
  { sign := x.sign ^^^ y.sign, abs := SNat.Mul x.abs y.abs cap }

/-- `Mod` (src/int.go): the unsigned residue of the signed value in
`[0, m-1]`, selecting the modular negation when the sign is negative. -/
def Mod (z : SInt) (m : Modulus) : SNat :=
  let out := SNat.Mod z.abs m
  let negated := SNat.ModNeg out m
  out.CondAssign z.sign negated

/-- `SetModSymmetric` (src/int.go): reduces a magnitude modulo `m` and
re-expresses the residue as a signed value centered on zero, storing the
smaller of the residue and its modular negation. -/
def SetModSymmetric (x : SNat) (m : Modulus) : SInt :=
  let abs := SNat.Mod x m
  let negated := SNat.ModNeg abs m
  let gt := (negated.Cmp abs).1
  let negatedLeq := 1 ^^^ gt
  { sign := negatedLeq, abs := abs.CondAssign negatedLeq negated }

/-- `CheckInRange` (src/int.go): masked boolean checking that the
magnitude is below the modulus and that its modular negation is not
strictly smaller than it. -/
def CheckInRange (z : SInt) (m : Modulus) : Choice :=
  let absOk := (z.abs.CmpMod m).2.2
  let negated := SNat.ModNeg z.abs m
  let lt := (negated.Cmp z.abs).2.2
  let signOk := 1 ^^^ lt
  absOk &&& signOk

end SInt

/-- The modulus 7, used in concrete test vectors. -/
def m7 : Modulus := ⟨7, by decide⟩

/-- The modulus 8, used in concrete test vectors. -/
def m8 : Modulus := ⟨8, by decide⟩

lemma one_xor_swap (a b : Nat) : 1 ^^^ a ^^^ b = 1 ^^^ b ^^^ a := by
  rw [Nat.xor_assoc, Nat.xor_assoc, Nat.xor_comm a b]

lemma one_xor_cancel (a : Nat) : 1 ^^^ (1 ^^^ a) = a := by
  rw [← Nat.xor_assoc, Nat.xor_self, Nat.zero_xor]

lemma one_xor_self_right (a : Nat) : 1 ^^^ a ^^^ a = 1 := by
  rw [Nat.xor_assoc, Nat.xor_self, Nat.xor_zero]

/-- C8: `SetBytes` and `SetUint64` always set the receiver's sign to 0
(positive), whatever the input bytes or 64-bit value. -/
theorem SetBytes_SetUint64_sign_zero (z w : SInt) (data : List Nat) (x : Nat) :
    (z.SetBytes data).sign = 0 ∧ (w.SetUint64 x).sign = 0 :=
  ⟨rfl, rfl⟩

/-- C6: negation is an involution up to `Eq`, and a single `Neg` flips the
sign bit unconditionally while copying the magnitude with its announced
size. -/
theorem Neg_involution (x : SInt) :
    SInt.Eq (SInt.Neg (SInt.Neg x)) x = 1 ∧
    (SInt.Neg x).sign = 1 ^^^ x.sign ∧ (SInt.Neg x).abs = x.abs := by
  refine ⟨?_, rfl, rfl⟩
  show ((if x.abs.val = 0 then 1 else 0) |||
      (1 ^^^ (1 ^^^ (1 ^^^ x.sign)) ^^^ x.sign)) &&&
      (if x.abs.val = x.abs.val then 1 else 0) = 1
  rw [one_xor_cancel, one_xor_self_right, if_pos rfl]
  split <;> decide

/-- C10: `Eq` is symmetric, even though the algorithm only tests the
receiver's magnitude for zero. -/
theorem Eq_symm (z x : SInt) : SInt.Eq z x = SInt.Eq x z := by
  show ((if z.abs.val = 0 then 1 else 0) ||| (1 ^^^ z.sign ^^^ x.sign)) &&&
      (if z.abs.val = x.abs.val then 1 else 0) =
      ((if x.abs.val = 0 then 1 else 0) ||| (1 ^^^ x.sign ^^^ z.sign)) &&&
      (if x.abs.val = z.abs.val then 1 else 0)
  by_cases h : z.abs.val = x.abs.val
  · rw [h, one_xor_swap]
  · have h2 : ¬ x.abs.val = z.abs.val := fun hyp => h hyp.symm
    rw [if_neg h, if_neg h2, Nat.and_zero, Nat.and_zero]

/-- C3: `Eq` returns the true mask exactly when the two signed integers
denote the same mathematical value `(-1)^sign * abs`; the mask is always
0 or 1. -/
theorem Eq_iff_same_value (z x : SInt)
    (hz : z.sign = 0 ∨ z.sign = 1) (hx : x.sign = 0 ∨ x.sign = 1) :
    (SInt.Eq z x = 1 ↔ z.toInt = x.toInt) ∧
    (SInt.Eq z x = 0 ∨ SInt.Eq z x = 1) := by
  have hE : SInt.Eq z x = ((if z.abs.val = 0 then 1 else 0) |||
      (1 ^^^ z.sign ^^^ x.sign)) &&& (if z.abs.val = x.abs.val then 1 else 0) := rfl
  rw [hE, SInt.toInt, SInt.toInt]
  rcases hz with hz | hz <;> rcases hx with hx | hx <;> rw [hz, hx] <;>
    split_ifs with h0 he <;> simp_all <;> omega

/-- Witness for C3 at a concrete input: positive zero equals negative
zero under `Eq`. -/
theorem Eq_iff_same_value_witness :
    SInt.Eq ⟨0, ⟨0, 5⟩⟩ ⟨1, ⟨0, 5⟩⟩ = 1 :=
  (Eq_iff_same_value ⟨0, ⟨0, 5⟩⟩ ⟨1, ⟨0, 5⟩⟩ (Or.inl rfl) (Or.inr rfl)).1.mpr
    (by decide)

lemma natCast_mod_modEq (v m : Nat) : ((v % m : ℕ) : ℤ) ≡ (v : ℤ) [ZMOD (m : ℤ)] := by
  rw [Int.ModEq, Int.natCast_mod, Int.emod_emod_of_dvd _ dvd_rfl]

lemma modNeg_modEq (v m : Nat) (hm : 0 < m) :
    (((m - v % m) % m : ℕ) : ℤ) ≡ -(v : ℤ) [ZMOD (m : ℤ)] := by
  have hle : v % m ≤ m := le_of_lt (Nat.mod_lt _ hm)
  have h : ((v : ℤ) % (m : ℤ)) ≡ (v : ℤ) [ZMOD (m : ℤ)] :=
    Int.emod_emod_of_dvd _ dvd_rfl
  have h2 := h.neg
  rw [Int.ModEq, Int.natCast_mod, Nat.cast_sub hle, Int.natCast_mod,
    Int.emod_emod_of_dvd _ dvd_rfl, Int.sub_emod, Int.emod_self,
    Int.emod_emod_of_dvd _ dvd_rfl, zero_sub]
  exact h2

lemma Mod_val (z : SInt) (m : Modulus) :
    (SInt.Mod z m).val =
      if z.sign = 1 then (m.val - z.abs.val % m.val % m.val) % m.val
      else z.abs.val % m.val := by
  unfold SInt.Mod SNat.CondAssign SNat.Mod SNat.ModNeg
  split <;> rfl

/-- C1: `Mod` returns a value in `[0, m-1]` congruent to the signed value
`(-1)^sign * abs` modulo `m`. -/
theorem Mod_correct (z : SInt) (m : Modulus) (h : z.sign = 0 ∨ z.sign = 1) :
    (SInt.Mod z m).val < m.val ∧
    ((SInt.Mod z m).val : Int) ≡ z.toInt [ZMOD (m.val : Int)] := by
  have hm := m.pos
  rcases h with hz | hz
  · have hne : ¬ z.sign = 1 := by rw [hz]; decide
    rw [Mod_val, if_neg hne, SInt.toInt, hz]
    exact ⟨Nat.mod_lt _ hm, by simpa using natCast_mod_modEq z.abs.val m.val⟩
  · rw [Mod_val, if_pos hz, SInt.toInt, hz]
    refine ⟨Nat.mod_lt _ hm, ?_⟩
    have h1 := modNeg_modEq (z.abs.val % m.val) m.val hm
    have h2 := (natCast_mod_modEq z.abs.val m.val).neg
    simpa using h1.trans h2

/-- Witness for C1 at the spec's test vector: sign 1, magnitude 3,
modulus 7 gives residue 4. -/
theorem Mod_correct_witness :
    ((SInt.Mod ⟨1, ⟨3, 2⟩⟩ m7).val < m7.val ∧
     ((SInt.Mod ⟨1, ⟨3, 2⟩⟩ m7).val : Int) ≡
       SInt.toInt ⟨1, ⟨3, 2⟩⟩ [ZMOD (m7.val : Int)]) ∧
    (SInt.Mod ⟨1, ⟨3, 2⟩⟩ m7).val = 4 :=
  ⟨Mod_correct ⟨1, ⟨3, 2⟩⟩ m7 (Or.inr rfl), by decide⟩

lemma mod_mod (a n : Nat) : a % n % n = a % n := Nat.mod_mod_of_dvd a dvd_rfl

lemma setModSymmetric_eval (x : SNat) (m : Modulus) :
    SInt.SetModSymmetric x m =
      if x.val % m.val < (m.val - x.val % m.val) % m.val
      then ⟨0, ⟨x.val % m.val, m.val.size⟩⟩
      else ⟨1, ⟨(m.val - x.val % m.val) % m.val, m.val.size⟩⟩ := by
  unfold SInt.SetModSymmetric SNat.Mod SNat.ModNeg SNat.Cmp SNat.CondAssign
  simp only [mod_mod]
  by_cases h : x.val % m.val < (m.val - x.val % m.val) % m.val
  · simp [h]
  · simp [h]

lemma checkInRange_eval (z : SInt) (m : Modulus) :
    SInt.CheckInRange z m =
      (if z.abs.val < m.val then 1 else 0) &&&
      (1 ^^^ (if (m.val - z.abs.val % m.val) % m.val < z.abs.val then 1 else 0)) :=
  rfl

/-- C2: `SetModSymmetric` produces a signed value congruent to the input
modulo `m`, lying in the symmetric range around zero, whose magnitude is
the smaller of the residue and its modular negation, with the tie at an
even midpoint resolved to the negative representative. -/
theorem SetModSymmetric_correct (x : SNat) (m : Modulus) :
    ((SInt.SetModSymmetric x m).toInt ≡ (x.val : Int) [ZMOD (m.val : Int)]) ∧
    (-(((m.val / 2 : ℕ) : Int)) ≤ (SInt.SetModSymmetric x m).toInt) ∧
    ((SInt.SetModSymmetric x m).toInt ≤ (((m.val - 1) / 2 : ℕ) : Int)) ∧
    ((SInt.SetModSymmetric x m).abs.val =
      min (x.val % m.val) ((m.val - x.val % m.val) % m.val)) ∧
    ((m.val - x.val % m.val) % m.val = x.val % m.val →
      (SInt.SetModSymmetric x m).sign = 1) := by
  have hm := m.pos
  have ha : x.val % m.val < m.val := Nat.mod_lt _ hm
  have hnc : (x.val % m.val = 0 ∧ (m.val - x.val % m.val) % m.val = 0) ∨
      (x.val % m.val ≠ 0 ∧
        (m.val - x.val % m.val) % m.val = m.val - x.val % m.val) := by
    by_cases h0 : x.val % m.val = 0
    · exact Or.inl ⟨h0, by simp [h0, Nat.mod_self]⟩
    · exact Or.inr ⟨h0, Nat.mod_eq_of_lt (by omega)⟩
  rw [setModSymmetric_eval]
  by_cases h : x.val % m.val < (m.val - x.val % m.val) % m.val
  · rw [if_pos h]
    refine ⟨by simpa [SInt.toInt] using natCast_mod_modEq x.val m.val, ?_, ?_, ?_, ?_⟩
    · show -(((m.val / 2 : ℕ) : Int)) ≤ (-1) ^ (0 : Choice) * ((x.val % m.val : ℕ) : Int)
      simp only [pow_zero, one_mul]
      omega
    · show (-1) ^ (0 : Choice) * ((x.val % m.val : ℕ) : Int) ≤ (((m.val - 1) / 2 : ℕ) : Int)
      simp only [pow_zero, one_mul]
      omega
    · show x.val % m.val = min (x.val % m.val) ((m.val - x.val % m.val) % m.val)
      omega
    · intro ht
      exact ((by omega : False)).elim
  · rw [if_neg h]
    refine ⟨?_, ?_, ?_, ?_, fun _ => rfl⟩
    · show (-1) ^ (1 : Choice) * (((m.val - x.val % m.val) % m.val : ℕ) : Int) ≡
        (x.val : Int) [ZMOD (m.val : Int)]
      simp only [pow_one, neg_one_mul]
      simpa using (modNeg_modEq x.val m.val hm).neg
    · show -(((m.val / 2 : ℕ) : Int)) ≤
        (-1) ^ (1 : Choice) * (((m.val - x.val % m.val) % m.val : ℕ) : Int)
      simp only [pow_one, neg_one_mul]
      omega
    · show (-1) ^ (1 : Choice) * (((m.val - x.val % m.val) % m.val : ℕ) : Int) ≤
        (((m.val - 1) / 2 : ℕ) : Int)
      simp only [pow_one, neg_one_mul]
      omega
    · show (m.val - x.val % m.val) % m.val =
        min (x.val % m.val) ((m.val - x.val % m.val) % m.val)
      omega

/-- Witness for C2 at the spec's tie-break vector: modulus 8, residue 4
gives the negative representative of magnitude 4. -/
theorem SetModSymmetric_correct_witness :
    (SInt.SetModSymmetric ⟨4, 3⟩ m8).sign = 1 ∧
    (SInt.SetModSymmetric ⟨4, 3⟩ m8).abs.val = 4 :=
  ⟨(SetModSymmetric_correct ⟨4, 3⟩ m8).2.2.2.2 (by decide), by decide⟩

/-- C4: the output of `SetModSymmetric` always passes `CheckInRange` for
the same modulus; in particular reducing 4 modulo 7 yields sign negative
with magnitude 3 and that result passes `CheckInRange(7)`. -/
theorem CheckInRange_SetModSymmetric (x : SNat) (m : Modulus) :
    SInt.CheckInRange (SInt.SetModSymmetric x m) m = 1 ∧
    (SInt.SetModSymmetric ⟨4, 3⟩ m7).sign = 1 ∧
    (SInt.SetModSymmetric ⟨4, 3⟩ m7).abs.val = 3 := by
  refine ⟨?_, by decide, by decide⟩
  have hm := m.pos
  have ha : x.val % m.val < m.val := Nat.mod_lt _ hm
  have hn : (m.val - x.val % m.val) % m.val < m.val := Nat.mod_lt _ hm
  have hnc : (x.val % m.val = 0 ∧ (m.val - x.val % m.val) % m.val = 0) ∨
      (x.val % m.val ≠ 0 ∧
        (m.val - x.val % m.val) % m.val = m.val - x.val % m.val) := by
    by_cases h0 : x.val % m.val = 0
    · exact Or.inl ⟨h0, by simp [h0, Nat.mod_self]⟩
    · exact Or.inr ⟨h0, Nat.mod_eq_of_lt (by omega)⟩
  rw [setModSymmetric_eval]
  by_cases h : x.val % m.val < (m.val - x.val % m.val) % m.val
  · rw [if_pos h, checkInRange_eval]
    simp only [mod_mod]
    have hlt : ¬ ((m.val - x.val % m.val) % m.val < x.val % m.val) := by omega
    rw [if_pos ha, if_neg hlt]
    decide
  · rw [if_neg h, checkInRange_eval]
    simp only [mod_mod]
    have hno : ¬ ((m.val - (m.val - x.val % m.val) % m.val) % m.val <
        (m.val - x.val % m.val) % m.val) := by
      rcases hnc with ⟨h0, hn0⟩ | ⟨h0, hn0⟩
      · rw [hn0]
        simp
      · rw [hn0]
        have hms : m.val - (m.val - x.val % m.val) = x.val % m.val := by omega
        rw [hms, Nat.mod_eq_of_lt ha]
        omega
    rw [if_pos hn, if_neg hno]
    decide

/-- Counterexample for C5 as stated: for `m = 8`, an `Int` with sign 0 and
magnitude `4 = (8+1)/2` passes `CheckInRange(8)` (the mask is not
false). -/
theorem CheckInRange_reject_counterexample :
    (m8.val + 1) / 2 ≤ 4 ∧ SInt.CheckInRange ⟨0, ⟨4, 3⟩⟩ m8 ≠ 0 := by
  decide

/-- C5 (amended): every `Int` whose magnitude is strictly greater than
`m/2` (equivalently, at least `(m+1)/2` computed as an exact fraction,
i.e. `2*abs ≥ m+1`), with either value of the sign bit, fails
`CheckInRange(m)`. -/
theorem CheckInRange_reject (m : Modulus) (z : SInt) (h : m.val < 2 * z.abs.val) :
    SInt.CheckInRange z m = 0 := by
  rw [checkInRange_eval]
  by_cases habs : z.abs.val < m.val
  · have hpos : 0 < z.abs.val := by omega
    have hlt : (m.val - z.abs.val % m.val) % m.val < z.abs.val := by
      rw [Nat.mod_eq_of_lt habs, Nat.mod_eq_of_lt (by omega : m.val - z.abs.val < m.val)]
      omega
    rw [if_pos habs, if_pos hlt]
    decide
  · rw [if_neg habs]
    exact Nat.zero_and _

/-- Witness for the amended C5: for `m = 8`, magnitude 5 (with `2*5 > 8`)
fails `CheckInRange(8)`. -/
theorem CheckInRange_reject_witness :
    m8.val < 2 * 5 ∧ SInt.CheckInRange ⟨0, ⟨5, 3⟩⟩ m8 = 0 :=
  ⟨by decide, CheckInRange_reject m8 ⟨0, ⟨5, 3⟩⟩ (by decide)⟩

/-- C7: `Mul` XORs the signs and truncates the product of the magnitudes
to `cap` bits; a negative cap defaults to the sum of the announced sizes,
in which case the product is exact whenever it fits in that many bits. -/
theorem Mul_correct (x y : SInt) (cap : Int) :
    (SInt.Mul x y cap).sign = x.sign ^^^ y.sign ∧
    (0 ≤ cap →
      (SInt.Mul x y cap).abs.val = x.abs.val * y.abs.val % 2 ^ cap.toNat) ∧
    (cap < 0 →
      (SInt.Mul x y cap).abs.bits = x.abs.bits + y.abs.bits ∧
      (x.abs.val * y.abs.val < 2 ^ (x.abs.bits + y.abs.bits) →
        (SInt.Mul x y cap).abs.val = x.abs.val * y.abs.val)) := by
  refine ⟨rfl, ?_, ?_⟩
  · intro hc
    have hcn : ¬ cap < 0 := by omega
    show (SNat.Mul x.abs y.abs cap).val = _
    unfold SNat.Mul
    simp [hcn]
  · intro hc
    constructor
    · show (SNat.Mul x.abs y.abs cap).bits = _
      unfold SNat.Mul
      simp [hc]
    · intro hp
      show (SNat.Mul x.abs y.abs cap).val = _
      unfold SNat.Mul
      simp only [if_pos hc]
      exact Nat.mod_eq_of_lt hp

/-- Witness for C7: `(+6) * (-7)` with default cap has sign negative,
announced size `3 + 3` and exact magnitude 42. -/
theorem Mul_correct_witness :
    (SInt.Mul ⟨0, ⟨6, 3⟩⟩ ⟨1, ⟨7, 3⟩⟩ (-1)).sign = 1 ∧
    (SInt.Mul ⟨0, ⟨6, 3⟩⟩ ⟨1, ⟨7, 3⟩⟩ (-1)).abs.bits = 3 + 3 ∧
    (SInt.Mul ⟨0, ⟨6, 3⟩⟩ ⟨1, ⟨7, 3⟩⟩ (-1)).abs.val = 6 * 7 := by
  have T := Mul_correct ⟨0, ⟨6, 3⟩⟩ ⟨1, ⟨7, 3⟩⟩ (-1)
  exact ⟨T.1, (T.2.2 (by decide)).1, (T.2.2 (by decide)).2 (by decide)⟩

/-- C9: `CheckInRange` never reads the stored sign bit (negating an `Int`
does not change the mask); for an even modulus the positive midpoint
`m/2` passes `CheckInRange` although `SetModSymmetric` can only produce
the midpoint with negative sign, so `CheckInRange` accepts values outside
the image of `SetModSymmetric`. -/
theorem CheckInRange_ignores_sign (m : Modulus) (z : SInt) :
    SInt.CheckInRange z m = SInt.CheckInRange (SInt.Neg z) m ∧
    (2 ∣ m.val → ∀ b : Nat, SInt.CheckInRange ⟨0, ⟨m.val / 2, b⟩⟩ m = 1) ∧
    (2 ∣ m.val → ∀ x : SNat,
      ¬((SInt.SetModSymmetric x m).sign = 0 ∧
        (SInt.SetModSymmetric x m).abs.val = m.val / 2)) := by
  have hm := m.pos
  refine ⟨rfl, ?_, ?_⟩
  · intro hd b
    have hm2 : 2 ≤ m.val := by omega
    rw [checkInRange_eval]
    have h1 : m.val / 2 % m.val = m.val / 2 := Nat.mod_eq_of_lt (by omega)
    show ((if m.val / 2 < m.val then 1 else 0) &&&
      (1 ^^^ (if (m.val - m.val / 2 % m.val) % m.val < m.val / 2 then 1 else 0))) = 1
    rw [h1]
    have h2 : m.val - m.val / 2 = m.val / 2 := by omega
    rw [h2, h1]
    have hlt : m.val / 2 < m.val := by omega
    have hnlt : ¬ (m.val / 2 < m.val / 2) := by omega
    rw [if_pos hlt, if_neg hnlt]
    decide
  · intro hd x hc
    obtain ⟨hs, hv⟩ := hc
    have ha : x.val % m.val < m.val := Nat.mod_lt _ hm
    rw [setModSymmetric_eval] at hs hv
    by_cases h : x.val % m.val < (m.val - x.val % m.val) % m.val
    · rw [if_pos h] at hs hv
      have hv2 : x.val % m.val = m.val / 2 := hv
      have hne : x.val % m.val ≠ 0 := by omega
      have hn : (m.val - x.val % m.val) % m.val = m.val - x.val % m.val :=
        Nat.mod_eq_of_lt (by omega)
      omega
    · rw [if_neg h] at hs
      exact absurd hs Nat.one_ne_zero

/-- Witness for C9 with the even modulus 8: the positive midpoint 4
passes `CheckInRange(8)`, yet `SetModSymmetric` of residue 4 does not
produce sign 0 with magnitude 4. -/
theorem CheckInRange_ignores_sign_witness :
    SInt.CheckInRange ⟨0, ⟨4, 3⟩⟩ m8 = 1 ∧
    ¬((SInt.SetModSymmetric ⟨4, 3⟩ m8).sign = 0 ∧
      (SInt.SetModSymmetric ⟨4, 3⟩ m8).abs.val = 4) := by
  have T := CheckInRange_ignores_sign m8 ⟨0, ⟨0, 0⟩⟩
  exact ⟨T.2.1 (by decide) 3, T.2.2 (by decide) ⟨4, 3⟩⟩
